import Mathlib

/-!
Verification of the workflow operator API and step-dependency resolution of
the FogDong/workflow repository, against a shallow embedding of
`pkg/utils/operation.go` and `pkg/steps/generator.go`.

Kubernetes plumbing (optimistic-concurrency retries, status patches) is
dropped: each operation is modelled as a pure function from the run status
(and, where needed, a minimal cluster model) to its result.  A Go function
that can fail returns `Except String`; returning `.error` models the Go
function returning a non-nil error, in which case the mutated in-memory
status is never written back to the cluster.
-/

namespace Workflow

/-- Phase of a workflow step.  The `api/v1alpha1` package is not part of the
sources at hand; the enum is taken from the specification's data model
(Pending, Running, Succeeded, Failed, Skipped, Suspending). -/
inductive WorkflowStepPhase where
  | pending
  | running
  | succeeded
  | failed
  | skipped
  | suspending
deriving DecidableEq, Repr

/-- `wfTypes.WorkflowStepTypeSuspend` (pkg/types, value named per the spec). -/
def WorkflowStepTypeSuspend : String := "suspend"

/-- `wfTypes.StatusReasonFailedAfterRetries` (pkg/types). -/
def StatusReasonFailedAfterRetries : String := "FailedAfterRetries"

/-- `wfTypes.StatusReasonTimeout` (pkg/types). -/
def StatusReasonTimeout : String := "Timeout"

/-- `wfTypes.StatusReasonTerminate` (pkg/types). -/
def StatusReasonTerminate : String := "Terminate"

/-- `v1alpha1.WorkflowModeDAG`. -/
def WorkflowModeDAG : String := "DAG"

/-- `v1alpha1.WorkflowModeStepByStep`. -/
def WorkflowModeStepByStep : String := "StepByStep"

/-- An input item of a step: `{From, ParameterKey}`. -/
structure InputItem where
  from_ : String
  parameterKey : String
deriving DecidableEq, Repr

/-- An output item of a step: `{Name, ValueFrom}` (only the name matters here). -/
structure OutputItem where
  name : String
deriving DecidableEq, Repr

/-- `v1alpha1.WorkflowStepBase`: the declarative description of one step. -/
structure WorkflowStepBase where
  name : String
  type : String
  dependsOn : List String
  inputs : List InputItem
  outputs : List OutputItem
deriving DecidableEq, Repr

/-- `v1alpha1.WorkflowStep`: a step, possibly a `step-group` with substeps. -/
structure WorkflowStep extends WorkflowStepBase where
  subSteps : List WorkflowStepBase
deriving DecidableEq, Repr

/-- `v1alpha1.StepStatus`: per-step status record (substep granularity). -/
structure StepStatus where
  id : String
  name : String
  type : String
  phase : WorkflowStepPhase
  reason : String
deriving DecidableEq, Repr

/-- `v1alpha1.WorkflowStepStatus`: a top-level step status with its substeps. -/
structure WorkflowStepStatus extends StepStatus where
  subStepsStatus : List StepStatus
deriving DecidableEq, Repr

/-- `v1alpha1.WorkflowExecuteMode`.  In Go the two fields are strings whose
zero value is `""`; they are compared against `WorkflowModeDAG`. -/
structure WorkflowExecuteMode where
  steps : String
  subSteps : String
deriving DecidableEq, Repr

/-- `v1alpha1.WorkflowRunStatus`.  `EndTime` is modelled as a `Nat`, `0`
standing for the zero time (`metav1.Time{}`). -/
structure WorkflowRunStatus where
  suspend : Bool
  terminated : Bool
  finished : Bool
  endTime : Nat
  contextBackend : Option String
  mode : WorkflowExecuteMode
  steps : List WorkflowStepStatus
deriving DecidableEq, Repr

/-- The zero `WorkflowRunStatus` (`v1alpha1.WorkflowRunStatus{}`). -/
def zeroStatus : WorkflowRunStatus :=
  { suspend := false
    terminated := false
    finished := false
    endTime := 0
    contextBackend := none
    mode := { steps := "", subSteps := "" }
    steps := [] }

/-- `stringsContain` from operation.go. -/
def stringsContain (items : List String) (source : String) : Bool :=
  match items with
  | [] => false
  | item :: rest => if item = source then true else stringsContain rest source

theorem stringsContain_iff_mem (items : List String) (source : String) :
    stringsContain items source = true ↔ source ∈ items := by
  induction items with
  | nil => simp [stringsContain]
  | cons item rest ih =>
    by_cases h : item = source
    · subst h; simp [stringsContain]
    · simp [stringsContain, h, ih, Ne.symm h]

/-! ## TerminateWorkflow (operation.go lines 169-206)

The per-step `switch` of `TerminateWorkflow`, applied to the embedded
`StepStatus` of a step or substep. -/

/-- One arm of `TerminateWorkflow`'s loop body. -/
def terminateStep (s : StepStatus) : StepStatus :=
  match s.phase with
  | .failed =>
    if s.reason ≠ StatusReasonFailedAfterRetries ∧ s.reason ≠ StatusReasonTimeout then
      { s with reason := StatusReasonTerminate }
    else s
  | .running => { s with phase := .failed, reason := StatusReasonTerminate }
  | _ => s

/-- `TerminateWorkflow`: sets `Terminated`, clears `Suspend`, and rewrites
every step's and substep's phase/reason per `terminateStep`. -/
def terminateWorkflow (st : WorkflowRunStatus) : WorkflowRunStatus :=
  { st with
    terminated := true
    suspend := false
    steps := st.steps.map fun w =>
      { toStepStatus := terminateStep w.toStepStatus
        subStepsStatus := w.subStepsStatus.map terminateStep } }

/-! ## Resume / ResumeWorkflow (operation.go lines 84-118) -/

/-- The per-step body of `ResumeWorkflow`'s loop: a step of type `suspend`
currently in phase Running is flipped to Succeeded. -/
def resumeStep (s : StepStatus) : StepStatus :=
  if s.type = WorkflowStepTypeSuspend ∧ s.phase = .running then
    { s with phase := .succeeded }
  else s

/-- `ResumeWorkflow`: clears `Suspend` and flips suspend-type Running steps
and substeps to Succeeded. -/
def resumeWorkflow (st : WorkflowRunStatus) : WorkflowRunStatus :=
  { st with
    suspend := false
    steps := st.steps.map fun w =>
      { toStepStatus := resumeStep w.toStepStatus
        subStepsStatus := w.subStepsStatus.map resumeStep } }

/-- `workflowRunOperator.Resume`: refuses on a terminated run; only calls
`ResumeWorkflow` when the run is currently suspended. -/
def resume (st : WorkflowRunStatus) : Except String WorkflowRunStatus :=
  if st.terminated then .error "can not resume a terminated workflow"
  else if st.suspend then .ok (resumeWorkflow st) else .ok st

/-- `workflowRunOperator.Rollback` (operation.go lines 121-123). -/
def rollback : Except String Unit :=
  .error "can not rollback a WorkflowRun"

/-! ## Association lists with Go-map semantics

Go maps are modelled as insertion-ordered association lists with unique
keys: `setA` overwrites the first entry with the given key or appends a new
one, `lookupA` returns the first entry's value.  Go's map iteration order
is unspecified; the claims proved below about iteration results are
membership statements, which do not depend on the order chosen here. -/

/-- Lookup in an association list (Go `m[k]` / `v, ok := m[k]`). -/
def lookupA {α : Type} (m : List (String × α)) (k : String) : Option α :=
  match m with
  | [] => none
  | e :: rest => if e.1 = k then some e.2 else lookupA rest k

/-- Update in an association list (Go `m[k] = v`). -/
def setA {α : Type} (m : List (String × α)) (k : String) (v : α) : List (String × α) :=
  match m with
  | [] => [(k, v)]
  | e :: rest => if e.1 = k then (k, v) :: rest else e :: setA rest k v

/-! ## getStepDependency, non-DAG branch (operation.go lines 366-386) -/

/-- Inner loop of the non-DAG branch: names of the substeps declared after
`stepName` in its parent's substep list, when `stepName` occurs there. -/
def subsAfter (subs : List WorkflowStepBase) (stepName : String) : Option (List String) :=
  match subs with
  | [] => none
  | sub :: rest =>
    if sub.name = stepName then some (rest.map WorkflowStepBase.name)
    else subsAfter rest stepName

/-- The non-DAG branch of `getStepDependency`: the names of the steps
declared after the first occurrence of `stepName`. -/
def stepsAfter (steps : List WorkflowStep) (stepName : String) : List String :=
  match steps with
  | [] => []
  | st :: rest =>
    if st.name = stepName then rest.map (fun s => s.name)
    else
      match subsAfter st.subSteps stepName with
      | some l => l
      | none => stepsAfter rest stepName

/-! ## getStepDependency, DAG branch (operation.go lines 387-416)

`stepOutputs` maps an output name to the step that declares it; `dependsOn`
maps a step name to its dependency list (explicit `DependsOn`, then the
producers of its inputs). -/

/-- First loop, output registration for one step or substep:
`stepOutputs[output.Name] = step.Name` for each declared output. -/
def setOutputs (so : List (String × String)) (owner : String) :
    List OutputItem → List (String × String)
  | [] => so
  | o :: rest => setOutputs (setA so o.name owner) owner rest

/-- First loop, one step or substep: register its outputs and record its
explicit `DependsOn` list. -/
def pass1Unit (so : List (String × String)) (dm : List (String × List String))
    (u : WorkflowStepBase) : List (String × String) × List (String × List String) :=
  (setOutputs so u.name u.outputs, setA dm u.name u.dependsOn)

/-- First loop over the substeps of a step. -/
def pass1Subs (so : List (String × String)) (dm : List (String × List String)) :
    List WorkflowStepBase → List (String × String) × List (String × List String)
  | [] => (so, dm)
  | u :: rest =>
    let p := pass1Unit so dm u
    pass1Subs p.1 p.2 rest

/-- First loop of the DAG branch over all steps. -/
def pass1 (so : List (String × String)) (dm : List (String × List String)) :
    List WorkflowStep → List (String × String) × List (String × List String)
  | [] => (so, dm)
  | st :: rest =>
    let p := pass1Unit so dm st.toWorkflowStepBase
    let q := pass1Subs p.1 p.2 st.subSteps
    pass1 q.1 q.2 rest

/-- Second loop, one input: when the input's `From` names a registered
output, append its producer to the consumer's dependency list unless it is
already present. -/
def addInput (so : List (String × String)) (dm : List (String × List String))
    (owner : String) (inp : InputItem) : List (String × List String) :=
  match lookupA so inp.from_ with
  | some name =>
    let cur := (lookupA dm owner).getD []
    if stringsContain cur name then dm else setA dm owner (cur ++ [name])
  | none => dm

/-- Second loop over the inputs of one step or substep. -/
def addInputs (so : List (String × String)) (dm : List (String × List String))
    (owner : String) : List InputItem → List (String × List String)
  | [] => dm
  | inp :: rest => addInputs so (addInput so dm owner inp) owner rest

/-- Second loop over the substeps of a step. -/
def pass2Subs (so : List (String × String)) (dm : List (String × List String)) :
    List WorkflowStepBase → List (String × List String)
  | [] => dm
  | u :: rest => pass2Subs so (addInputs so dm u.name u.inputs) rest

/-- Second loop of the DAG branch over all steps. -/
def pass2 (so : List (String × String)) (dm : List (String × List String)) :
    List WorkflowStep → List (String × List String)
  | [] => dm
  | st :: rest => pass2 so (pass2Subs so (addInputs so dm st.name st.inputs) st.subSteps) rest

/-- The two maps built by the DAG branch of `getStepDependency`. -/
def buildMaps (steps : List WorkflowStep) :
    List (String × String) × List (String × List String) :=
  let p := pass1 [] [] steps
  (p.1, pass2 p.1 p.2 steps)

/-- The `dependsOn` map of the DAG branch. -/
def buildDependsOn (steps : List WorkflowStep) : List (String × List String) :=
  (buildMaps steps).2

/-- `findDependency` (operation.go lines 427-438), with an explicit fuel
bounding the recursion depth.  The Go function recurses with no visited set
and no fuel; on an acyclic map every fuel of at least `dm.length + 1`
yields the same result (proved below), which is the Go behaviour. -/
def findDependencyF : Nat → List (String × List String) → String → List String
  | 0, _, _ => []
  | fuel + 1, dm, stepName =>
    dm.flatMap fun e =>
      e.2.flatMap fun dep =>
        if dep = stepName then e.1 :: findDependencyF fuel dm e.1 else []

/-- `findDependency` at its sufficient fuel. -/
def findDependency (dm : List (String × List String)) (stepName : String) : List String :=
  findDependencyF (dm.length + 1) dm stepName

/-- `getStepDependency` (operation.go lines 366-416).  The `ctx`/`cli`
arguments of the Go function are unused by its body and are dropped. -/
def getStepDependency (steps : List WorkflowStep) (stepName : String) (dag : Bool) :
    List String :=
  if !dag then stepsAfter steps stepName
  else findDependency (buildDependsOn steps) stepName

/-! ## RestartFromStep (operation.go lines 209-292) -/

/-- `deleteStepStatus` (operation.go lines 333-345). -/
def deleteStepStatus (dependency : List String) (steps : List WorkflowStepStatus)
    (stepName : String) (group : Bool) : List WorkflowStepStatus :=
  match steps with
  | [] => []
  | step :: rest =>
    let keep :=
      (group && !stringsContain dependency step.name) ||
      (!group && !stringsContain dependency step.name && step.name != stepName)
    if keep then step :: deleteStepStatus dependency rest stepName group
    else deleteStepStatus dependency rest stepName group

/-- `deleteSubStepStatus` (operation.go lines 347-355). -/
def deleteSubStepStatus (dependency : List String) (subSteps : List StepStatus)
    (stepName : String) : List StepStatus :=
  match subSteps with
  | [] => []
  | step :: rest =>
    if !stringsContain dependency step.name && step.name != stepName then
      step :: deleteSubStepStatus dependency rest stepName
    else deleteSubStepStatus dependency rest stepName

/-- `mergeUniqueStringSlice` (operation.go lines 418-425). -/
def mergeUniqueStringSlice (a : List String) : List String → List String
  | [] => a
  | item :: rest =>
    if stringsContain a item then mergeUniqueStringSlice a rest
    else mergeUniqueStringSlice (a ++ [item]) rest

/-- The first substep status whose name matches (inner loop of
`RestartFromStep`'s scan). -/
def firstSubMatch (subs : List StepStatus) (stepName : String) : Option StepStatus :=
  match subs with
  | [] => none
  | sub :: rest => if sub.name = stepName then some sub else firstSubMatch rest stepName

/-- The scan loop of `RestartFromStep` (operation.go lines 235-261).

`done` is the already-visited prefix of the iterated slice `stepStatus` and
`done ++ rest` its current contents; `override = none` while
`run.Status.Steps` still aliases `stepStatus`, and `override = some l` once
it has been reassigned to a fresh slice `l`.  A match on a top-level step
name breaks the loop; a match on a substep name updates the state and
continues with the next index, exactly as the Go inner `break` does.  While
aliased, the in-place writes to element `i` land in the iterated array
(hence in `done`); afterwards they land in a slice that the same iteration
immediately replaces, so they are dropped. -/
def restartLoop (steps : List WorkflowStep) (mode : WorkflowExecuteMode) (stepName : String) :
    List WorkflowStepStatus → List WorkflowStepStatus → Option (List WorkflowStepStatus) →
    List String → Bool → Except String (List WorkflowStepStatus × List String × Bool)
  | done, [], override, dependency, found => .ok (override.getD done, dependency, found)
  | done, step :: rest, override, dependency, found =>
    if step.name = stepName then
      if step.phase ≠ WorkflowStepPhase.failed then
        .error "can not restart from a non-failed step"
      else
        let dep := getStepDependency steps stepName (mode.steps = WorkflowModeDAG)
        .ok (deleteStepStatus dep (done ++ step :: rest) stepName false, dep, true)
    else
      match firstSubMatch step.subStepsStatus stepName with
      | some sub =>
        if sub.phase ≠ WorkflowStepPhase.failed then
          .error "can not restart from a non-failed step"
        else
          let subDep := getStepDependency steps stepName (mode.subSteps = WorkflowModeDAG)
          let stepDep := getStepDependency steps step.name (mode.steps = WorkflowModeDAG)
          let step' : WorkflowStepStatus :=
            { toStepStatus := { step.toStepStatus with phase := .running, reason := "" }
              subStepsStatus := deleteSubStepStatus subDep step.subStepsStatus stepName }
          let arr :=
            match override with
            | none => done ++ step' :: rest
            | some _ => done ++ step :: rest
          let newRun := deleteStepStatus stepDep arr stepName true
          let doneEntry := match override with | none => step' | some _ => step
          restartLoop steps mode stepName (done ++ [doneEntry]) rest (some newRun)
            (mergeUniqueStringSlice subDep stepDep) true
      | none => restartLoop steps mode stepName (done ++ [step]) rest override dependency found

/-- `RestartFromStep` (operation.go lines 209-292), as a pure transformation
of the run status.  `steps` stands for the declared workflow steps (from
`spec.workflowSpec` or the referenced `Workflow` object); the
context-variable cleanup that follows the status update in Go is modelled
separately by `clearContextVars`.  An `.error` result models the Go
function returning an error, in which case no status is written back. -/
def restartFromStep (steps : List WorkflowStep) (status : WorkflowRunStatus)
    (stepName : String) : Except String WorkflowRunStatus :=
  if stepName = "" then .error "step name can not be empty"
  else
    match restartLoop steps status.mode stepName [] status.steps none [] false with
    | .error e => .error e
    | .ok (newSteps, _dep, found) =>
      if found then
        .ok { status with
          terminated := false
          suspend := false
          finished := false
          endTime := 0
          steps := newSteps }
      else .error ("failed step " ++ stepName ++ " not found")

/-- `RestartWorkflow` (operation.go lines 135-157).  The cluster is
modelled as the list of names of existing durable context objects; `Get`
succeeds exactly when the name is present, failing with not-found
otherwise, and `Delete` removes it. -/
def restartWorkflow (cluster : List String) (status : WorkflowRunStatus)
    (steps : List WorkflowStep) (step : String) :
    Except String (List String × WorkflowRunStatus) :=
  if step ≠ "" then
    match restartFromStep steps status step with
    | .error e => .error e
    | .ok st => .ok (cluster, st)
  else
    let cluster' :=
      match status.contextBackend with
      | some name => if cluster.contains name then cluster.erase name else cluster
      | none => cluster
    .ok (cluster', zeroStatus)

/-! ## clearContextVars (operation.go lines 295-331)

The CUE document held under the context's `vars` key is modelled as a
syntax node: either a struct literal whose elements are labelled fields or
other declarations, or a non-struct node.  The Go function re-renders the
filtered struct to a string; the model returns the filtered node itself. -/

/-- A declaration inside a CUE struct literal. -/
inductive CueDecl where
  | field (label : String) (payload : String)
  | other (payload : String)
deriving DecidableEq, Repr

/-- A CUE document node, as far as `clearContextVars` inspects it. -/
inductive CueNode where
  | structLit (elts : List CueDecl)
  | notStruct (desc : String)
deriving DecidableEq, Repr

/-- Output-name collection of `clearContextVars`, substep part. -/
def collectOutputsSubs (stepName : String) (dependency : List String) :
    List WorkflowStepBase → List String
  | [] => []
  | sub :: rest =>
    (if sub.name = stepName ∨ stringsContain dependency sub.name then
      sub.outputs.map OutputItem.name
    else []) ++ collectOutputsSubs stepName dependency rest

/-- Output-name collection of `clearContextVars` (lines 296-310): the
outputs of every step or substep that is the target or one of its
dependents. -/
def collectOutputs (stepName : String) (dependency : List String) :
    List WorkflowStep → List String
  | [] => []
  | st :: rest =>
    (if st.name = stepName ∨ stringsContain dependency st.name then
      st.outputs.map OutputItem.name
    else []) ++ collectOutputsSubs stepName dependency st.subSteps
      ++ collectOutputs stepName dependency rest

/-- `clearContextVars` (operation.go lines 295-331): on a struct literal,
keep exactly the fields whose label is not a collected output name
(non-field declarations are dropped, as in the source); on any other node,
fail. -/
def clearContextVars (steps : List WorkflowStep) (v : CueNode) (stepName : String)
    (dependency : List String) : Except String CueNode :=
  let outputs := collectOutputs stepName dependency steps
  match v with
  | .structLit elts =>
    .ok (.structLit (elts.filter fun d =>
      match d with
      | .field label _ => !stringsContain outputs label
      | .other _ => false))
  | .notStruct _ => .error "value is not a struct lit"

/-! ## Step ID generation (generator.go lines 137-159) -/

/-- Modelled from the spec: `utils.RandomString` (pkg/utils, not among the
sources at hand) mints a fresh random ID of the requested length; the
randomness source is modelled as a character oracle. -/
def RandomString (rand : Nat → Char) (n : Nat) : String :=
  String.mk ((List.range n).map rand)

/-- The scan of `generateStepID`: the first top-level step status with the
given name. -/
def findStepStatus (steps : List WorkflowStepStatus) (name : String) :
    Option WorkflowStepStatus :=
  match steps with
  | [] => none
  | ss :: rest => if ss.name = name then some ss else findStepStatus rest name

/-- `generateStepID` (generator.go lines 137-145). -/
def generateStepID (rand : Nat → Char) (status : WorkflowRunStatus) (name : String) :
    String :=
  match findStepStatus status.steps name with
  | some ss => ss.id
  | none => RandomString rand 10

/-- The scan of `generateSubStepID`: for each top-level status named
`parentStepName`, look for a substep status named `name`; keep scanning
further parents when the substep is absent, as the Go loop does. -/
def findSubStepID (steps : List WorkflowStepStatus) (name parentStepName : String) :
    Option String :=
  match steps with
  | [] => none
  | ss :: rest =>
    if ss.name = parentStepName then
      match firstSubMatch ss.subStepsStatus name with
      | some sub => some sub.id
      | none => findSubStepID rest name parentStepName
    else findSubStepID rest name parentStepName

/-- `generateSubStepID` (generator.go lines 147-159). -/
def generateSubStepID (rand : Nat → Char) (status : WorkflowRunStatus)
    (name parentStepName : String) : String :=
  match findSubStepID status.steps name parentStepName with
  | some id => id
  | none => RandomString rand 10

/-! ## Theorems -/

/-- Pointwise Forall₂ between a list and its map. -/
theorem forall₂_map_self {α β : Type} (R : α → β → Prop) (f : α → β) (l : List α)
    (h : ∀ x ∈ l, R x (f x)) : List.Forall₂ R l (l.map f) := by
  induction l with
  | nil => simp
  | cons a t ih =>
    simp only [List.map_cons]
    exact List.Forall₂.cons (h a (by simp)) (ih fun x hx => h x (by simp [hx]))

/-! ### C1: TerminateWorkflow -/

/-- What termination does to one step or substep record, as the claim
states it: Running becomes Failed with reason Terminate; Failed keeps its
reason exactly when it is FailedAfterRetries or Timeout and is otherwise
overwritten with Terminate; any other phase is left unchanged. -/
def TerminateRel (old new : StepStatus) : Prop :=
  (old.phase = .running → new = { old with phase := .failed, reason := StatusReasonTerminate }) ∧
  (old.phase = .failed →
    ((old.reason = StatusReasonFailedAfterRetries ∨ old.reason = StatusReasonTimeout) →
      new = old) ∧
    (old.reason ≠ StatusReasonFailedAfterRetries ∧ old.reason ≠ StatusReasonTimeout →
      new = { old with reason := StatusReasonTerminate })) ∧
  (old.phase ≠ .running ∧ old.phase ≠ .failed → new = old)

theorem terminateRel_terminateStep (s : StepStatus) : TerminateRel s (terminateStep s) := by
  unfold TerminateRel terminateStep
  rcases s with ⟨id, name, ty, phase, reason⟩
  cases phase <;>
    (simp_all
     <;> by_cases h1 : reason = StatusReasonFailedAfterRetries
     <;> by_cases h2 : reason = StatusReasonTimeout
     <;> simp_all)

/-- C1: `TerminateWorkflow` sets `Terminated`, clears `Suspend`, and rewrites
every step and substep according to `TerminateRel`: Running steps become
Failed with reason Terminate, already-Failed steps keep their reason exactly
when it is FailedAfterRetries or Timeout and otherwise get Terminate, and
steps in any other phase are unchanged. -/
theorem c1_terminate_marks_steps (st : WorkflowRunStatus) :
    (terminateWorkflow st).terminated = true ∧
    (terminateWorkflow st).suspend = false ∧
    List.Forall₂
      (fun o n => TerminateRel o.toStepStatus n.toStepStatus ∧
        List.Forall₂ TerminateRel o.subStepsStatus n.subStepsStatus)
      st.steps (terminateWorkflow st).steps := by
  refine ⟨rfl, rfl, ?_⟩
  apply forall₂_map_self
  intro x _
  exact ⟨terminateRel_terminateStep _, forall₂_map_self _ _ _ fun y _ => terminateRel_terminateStep y⟩

/-- A run with one Running step, one Pending step, and a group whose
substeps exercise both Failed arms. -/
def terminateExample : WorkflowRunStatus :=
  { suspend := true
    terminated := false
    finished := false
    endTime := 0
    contextBackend := none
    mode := { steps := "StepByStep", subSteps := "StepByStep" }
    steps :=
      [ { id := "1", name := "A", type := "t", phase := .running, reason := "",
          subStepsStatus := [] }
      , { id := "2", name := "B", type := "t", phase := .pending, reason := "",
          subStepsStatus := [] }
      , { id := "3", name := "G", type := "step-group", phase := .failed, reason := "other",
          subStepsStatus :=
            [ { id := "4", name := "s1", type := "t", phase := .failed,
                reason := "FailedAfterRetries" }
            , { id := "5", name := "s2", type := "t", phase := .running, reason := "" } ] } ] }

theorem c1_witness :
    (terminateWorkflow terminateExample).terminated = true ∧
    (terminateWorkflow terminateExample).suspend = false ∧
    List.Forall₂
      (fun o n => TerminateRel o.toStepStatus n.toStepStatus ∧
        List.Forall₂ TerminateRel o.subStepsStatus n.subStepsStatus)
      terminateExample.steps (terminateWorkflow terminateExample).steps :=
  c1_terminate_marks_steps terminateExample

/-! ### C2: Resume -/

/-- The phase relation C2 claims for one step or substep: a suspend-type
step in phase Suspending flips to Succeeded, every other step keeps its
phase. -/
def C2PhaseRel (old new : StepStatus) : Prop :=
  (old.type = WorkflowStepTypeSuspend ∧ old.phase = .suspending → new.phase = .succeeded) ∧
  (¬(old.type = WorkflowStepTypeSuspend ∧ old.phase = .suspending) → new.phase = old.phase)

/-- Claim C2, stated as written: on a terminated run Resume errors;
otherwise it clears `Suspend` and relates every step and substep to its new
record by `C2PhaseRel`. -/
def C2Claim (st : WorkflowRunStatus) (r : Except String WorkflowRunStatus) : Prop :=
  (st.terminated = true → ∃ e, r = .error e) ∧
  (st.terminated = false → ∃ st', r = .ok st' ∧ st'.suspend = false ∧
    List.Forall₂
      (fun o n => C2PhaseRel o.toStepStatus n.toStepStatus ∧
        List.Forall₂ C2PhaseRel o.subStepsStatus n.subStepsStatus)
      st.steps st'.steps)

/-- A suspended, non-terminated run with a suspend-type step in phase
Running and another in phase Suspending. -/
def c2Run : WorkflowRunStatus :=
  { suspend := true
    terminated := false
    finished := false
    endTime := 0
    contextBackend := none
    mode := { steps := "StepByStep", subSteps := "StepByStep" }
    steps :=
      [ { id := "1", name := "A", type := "suspend", phase := .running, reason := "",
          subStepsStatus := [] }
      , { id := "2", name := "B", type := "suspend", phase := .suspending, reason := "",
          subStepsStatus := [] } ] }

/-- C2 as stated is false on the code: `Resume` flips the suspend-type step
in phase Running (which the claim says keeps its phase) and leaves the one
in phase Suspending untouched (which the claim says flips to Succeeded). -/
theorem c2_counterexample : ¬ C2Claim c2Run (resume c2Run) := by
  intro h
  obtain ⟨-, h2⟩ := h
  obtain ⟨st', heq, -, hf⟩ := h2 rfl
  have hst' : st' = resumeWorkflow c2Run := by
    have : resume c2Run = Except.ok (resumeWorkflow c2Run) := rfl
    rw [this] at heq
    exact (Except.ok.injEq _ _).mp heq.symm
  subst hst'
  rcases hf with _ | ⟨⟨hA, -⟩, hf⟩
  have : WorkflowStepPhase.succeeded = WorkflowStepPhase.running := hA.2 (by decide)
  exact absurd this (by decide)

/-- One step or substep of a run that `ResumeWorkflow` actually touches:
a suspend-type step in phase Running flips to Succeeded (its other fields
unchanged), every other step is left entirely unchanged. -/
def ResumeRel (old new : StepStatus) : Prop :=
  (old.type = WorkflowStepTypeSuspend ∧ old.phase = .running →
    new = { old with phase := .succeeded }) ∧
  (¬(old.type = WorkflowStepTypeSuspend ∧ old.phase = .running) → new = old)

theorem resumeRel_resumeStep (s : StepStatus) : ResumeRel s (resumeStep s) := by
  unfold ResumeRel resumeStep
  by_cases h : s.type = WorkflowStepTypeSuspend ∧ s.phase = .running <;> simp [h]

/-- C2 amended: Resume errors on a terminated run; on a run that is not
suspended it changes nothing; on a suspended run it clears `Suspend`,
leaves every other status field unchanged, and flips exactly the
suspend-type steps and substeps whose phase is Running (not Suspending) to
Succeeded, leaving all other steps unchanged. -/
theorem c2_resume_amended (st : WorkflowRunStatus) :
    (st.terminated = true → resume st = .error "can not resume a terminated workflow") ∧
    (st.terminated = false → st.suspend = false → resume st = .ok st) ∧
    (st.terminated = false → st.suspend = true →
      ∃ st', resume st = .ok st' ∧ st'.suspend = false ∧
        st'.terminated = st.terminated ∧ st'.finished = st.finished ∧
        st'.endTime = st.endTime ∧ st'.contextBackend = st.contextBackend ∧
        st'.mode = st.mode ∧
        List.Forall₂
          (fun o n => ResumeRel o.toStepStatus n.toStepStatus ∧
            List.Forall₂ ResumeRel o.subStepsStatus n.subStepsStatus)
          st.steps st'.steps) := by
  refine ⟨fun ht => ?_, fun ht hs => ?_, fun ht hs => ?_⟩
  · simp [resume, ht]
  · simp [resume, ht, hs]
  · refine ⟨resumeWorkflow st, ?_, rfl, rfl, rfl, rfl, rfl, rfl, ?_⟩
    · simp [resume, ht, hs]
    · apply forall₂_map_self
      intro x _
      exact ⟨resumeRel_resumeStep _, forall₂_map_self _ _ _ fun y _ => resumeRel_resumeStep y⟩

/-- A terminated run. -/
def c2TermRun : WorkflowRunStatus :=
  { suspend := false
    terminated := true
    finished := false
    endTime := 0
    contextBackend := none
    mode := { steps := "", subSteps := "" }
    steps := [] }

theorem c2_witness :
    resume c2TermRun = .error "can not resume a terminated workflow" ∧
    (∃ st', resume c2Run = .ok st' ∧ st'.suspend = false ∧
      st'.terminated = c2Run.terminated ∧ st'.finished = c2Run.finished ∧
      st'.endTime = c2Run.endTime ∧ st'.contextBackend = c2Run.contextBackend ∧
      st'.mode = c2Run.mode ∧
      List.Forall₂
        (fun o n => ResumeRel o.toStepStatus n.toStepStatus ∧
          List.Forall₂ ResumeRel o.subStepsStatus n.subStepsStatus)
        c2Run.steps st'.steps) :=
  ⟨(c2_resume_amended c2TermRun).1 rfl, (c2_resume_amended c2Run).2.2 rfl rfl⟩

/-! ### C5: getStepDependency, non-DAG mode -/

theorem subsAfter_eq_none (subs : List WorkflowStepBase) (s : String)
    (h : ∀ q ∈ subs, q.name ≠ s) : subsAfter subs s = none := by
  induction subs with
  | nil => rfl
  | cons q rest ih =>
    have hq : q.name ≠ s := h q (by simp)
    simp only [subsAfter, if_neg hq]
    exact ih fun x hx => h x (by simp [hx])

theorem subsAfter_found (spre spost : List WorkflowStepBase) (sub : WorkflowStepBase)
    (s : String) (hname : sub.name = s) (hpre : ∀ q ∈ spre, q.name ≠ s) :
    subsAfter (spre ++ sub :: spost) s = some (spost.map WorkflowStepBase.name) := by
  induction spre with
  | nil => simp [subsAfter, hname]
  | cons q rest ih =>
    have hq : q.name ≠ s := hpre q (by simp)
    simp only [List.cons_append, subsAfter, if_neg hq]
    exact ih fun x hx => hpre x (by simp [hx])

/-- No step of `pre` matches `s`, by top-level name or substep name. -/
def NoSpecMatch (pre : List WorkflowStep) (s : String) : Prop :=
  ∀ p ∈ pre, p.name ≠ s ∧ ∀ q ∈ p.subSteps, q.name ≠ s

theorem stepsAfter_skip (pre rest : List WorkflowStep) (s : String)
    (h : NoSpecMatch pre s) : stepsAfter (pre ++ rest) s = stepsAfter rest s := by
  induction pre with
  | nil => rfl
  | cons p tail ih =>
    obtain ⟨hp, hsub⟩ := h p (by simp)
    simp only [List.cons_append, stepsAfter, if_neg hp, subsAfter_eq_none p.subSteps s hsub]
    exact ih fun x hx => h x (by simp [hx])

/-- C5: in non-DAG mode, `getStepDependency` returns the names of the steps
declared after `stepName` in textual order; for a substep, the names of the
substeps after it within its parent's list; and the empty list when
`stepName` occurs nowhere. -/
theorem c5_non_dag_dependency (stepName : String) :
    (∀ (pre post : List WorkflowStep) (st : WorkflowStep),
      st.name = stepName → NoSpecMatch pre stepName →
      getStepDependency (pre ++ st :: post) stepName false =
        post.map (fun s => s.name)) ∧
    (∀ (pre post : List WorkflowStep) (st : WorkflowStep)
        (spre spost : List WorkflowStepBase) (sub : WorkflowStepBase),
      st.subSteps = spre ++ sub :: spost → sub.name = stepName →
      st.name ≠ stepName → NoSpecMatch pre stepName →
      (∀ q ∈ spre, q.name ≠ stepName) →
      getStepDependency (pre ++ st :: post) stepName false =
        spost.map WorkflowStepBase.name) ∧
    (∀ steps : List WorkflowStep, NoSpecMatch steps stepName →
      getStepDependency steps stepName false = []) := by
  refine ⟨fun pre post st hname hpre => ?_, fun pre post st spre spost sub hsubs hname hst hpre hspre => ?_, fun steps h => ?_⟩
  · simp only [getStepDependency, Bool.not_false, if_pos rfl]
    rw [stepsAfter_skip pre (st :: post) stepName hpre]
    simp [stepsAfter, hname]
  · simp only [getStepDependency, Bool.not_false, if_true]
    rw [stepsAfter_skip pre (st :: post) stepName hpre]
    simp only [stepsAfter, if_neg hst, hsubs,
      subsAfter_found spre spost sub stepName hname hspre]
  · simp only [getStepDependency, Bool.not_false, if_true]
    rw [← List.append_nil steps, stepsAfter_skip steps [] stepName h]
    rfl

/-- Steps `[A, G(s1,s2,s3), D]` used by several witnesses below. -/
def specSteps : List WorkflowStep :=
  [ { name := "A", type := "t", dependsOn := [], inputs := [],
      outputs := [{ name := "x" }], subSteps := [] }
  , { name := "G", type := "step-group", dependsOn := [], inputs := [], outputs := [],
      subSteps :=
        [ { name := "s1", type := "t", dependsOn := [], inputs := [], outputs := [] }
        , { name := "s2", type := "t", dependsOn := [], inputs := [],
            outputs := [{ name := "y" }] }
        , { name := "s3", type := "t", dependsOn := [], inputs := [], outputs := [] } ] }
  , { name := "D", type := "t", dependsOn := [], inputs := [], outputs := [],
      subSteps := [] } ]

theorem c5_witness :
    getStepDependency specSteps "G" false = ["D"] ∧
    getStepDependency specSteps "s2" false = ["s3"] ∧
    getStepDependency specSteps "Z" false = [] := by
  refine ⟨?_, ?_, ?_⟩
  · have h := (c5_non_dag_dependency "G").1 [specSteps[0]] [specSteps[2]] specSteps[1]
      rfl (by intro p hp; simp [specSteps] at hp; subst hp; simp [specSteps])
    simpa [specSteps] using h
  · have h := (c5_non_dag_dependency "s2").2.1 [specSteps[0]] [specSteps[2]] specSteps[1]
      [(specSteps[1]).subSteps[0]] [(specSteps[1]).subSteps[2]] (specSteps[1]).subSteps[1]
      (by simp [specSteps]) rfl (by simp [specSteps])
      (by intro p hp; simp [specSteps] at hp; subst hp; simp [specSteps])
      (by intro q hq; simp [specSteps] at hq; subst hq; simp [specSteps])
    simpa [specSteps] using h
  · have h := (c5_non_dag_dependency "Z").2.2 specSteps
      (by intro p hp; simp [specSteps] at hp
          rcases hp with h | h | h <;> subst h <;> simp [specSteps])
    simpa using h

/-! ### C6: clearContextVars -/

/-- A label is an output name of the target step or of a dependent step or
substep — the labels C6 says are deleted. -/
def IsClearedOutput (steps : List WorkflowStep) (stepName : String)
    (dependency : List String) (l : String) : Prop :=
  (∃ st ∈ steps, (st.name = stepName ∨ st.name ∈ dependency) ∧
    l ∈ st.outputs.map OutputItem.name) ∨
  (∃ st ∈ steps, ∃ sub ∈ st.subSteps, (sub.name = stepName ∨ sub.name ∈ dependency) ∧
    l ∈ sub.outputs.map OutputItem.name)

theorem mem_collectOutputsSubs (stepName : String) (dependency : List String)
    (subs : List WorkflowStepBase) (l : String) :
    l ∈ collectOutputsSubs stepName dependency subs ↔
      ∃ sub ∈ subs, (sub.name = stepName ∨ sub.name ∈ dependency) ∧
        l ∈ sub.outputs.map OutputItem.name := by
  induction subs with
  | nil => simp [collectOutputsSubs]
  | cons sub rest ih =>
    by_cases h : sub.name = stepName ∨ stringsContain dependency sub.name = true
    · have h' : sub.name = stepName ∨ sub.name ∈ dependency := by
        rcases h with h | h
        · exact Or.inl h
        · exact Or.inr ((stringsContain_iff_mem _ _).mp h)
      simp only [collectOutputsSubs, if_pos h, List.mem_append, ih]
      constructor
      · rintro (hmem | ⟨s, hs, hc, hm⟩)
        · exact ⟨sub, by simp, h', hmem⟩
        · exact ⟨s, by simp [hs], hc, hm⟩
      · rintro ⟨s, hs, hc, hm⟩
        rcases List.mem_cons.mp hs with rfl | hs'
        · exact Or.inl hm
        · exact Or.inr ⟨s, hs', hc, hm⟩
    · have h' : ¬(sub.name = stepName ∨ sub.name ∈ dependency) := by
        intro hc
        apply h
        rcases hc with hc | hc
        · exact Or.inl hc
        · exact Or.inr ((stringsContain_iff_mem _ _).mpr hc)
      simp only [collectOutputsSubs, if_neg h, List.nil_append, ih]
      constructor
      · rintro ⟨s, hs, hc, hm⟩
        exact ⟨s, by simp [hs], hc, hm⟩
      · rintro ⟨s, hs, hc, hm⟩
        rcases List.mem_cons.mp hs with rfl | hs'
        · exact absurd hc h'
        · exact ⟨s, hs', hc, hm⟩

theorem mem_collectOutputs (stepName : String) (dependency : List String)
    (steps : List WorkflowStep) (l : String) :
    l ∈ collectOutputs stepName dependency steps ↔
      IsClearedOutput steps stepName dependency l := by
  induction steps with
  | nil => simp [collectOutputs, IsClearedOutput]
  | cons st rest ih =>
    have hsplit : l ∈ collectOutputs stepName dependency (st :: rest) ↔
        (l ∈ (if st.name = stepName ∨ stringsContain dependency st.name = true then
            st.outputs.map OutputItem.name else []) ∨
         l ∈ collectOutputsSubs stepName dependency st.subSteps) ∨
         l ∈ collectOutputs stepName dependency rest := by
      simp [collectOutputs, List.mem_append, or_assoc]
    rw [hsplit, ih, mem_collectOutputsSubs]
    unfold IsClearedOutput
    constructor
    · rintro ((htop | hsub) | (hr | hr))
      · by_cases h : st.name = stepName ∨ stringsContain dependency st.name = true
        · rw [if_pos h] at htop
          refine Or.inl ⟨st, by simp, ?_, htop⟩
          rcases h with h | h
          · exact Or.inl h
          · exact Or.inr ((stringsContain_iff_mem _ _).mp h)
        · rw [if_neg h] at htop
          simp at htop
      · obtain ⟨sub, hs, hc, hm⟩ := hsub
        exact Or.inr ⟨st, by simp, sub, hs, hc, hm⟩
      · obtain ⟨s, hs, hc, hm⟩ := hr
        exact Or.inl ⟨s, by simp [hs], hc, hm⟩
      · obtain ⟨s, hs, sub, hsub, hc, hm⟩ := hr
        exact Or.inr ⟨s, by simp [hs], sub, hsub, hc, hm⟩
    · rintro (⟨s, hs, hc, hm⟩ | ⟨s, hs, sub, hsub, hc, hm⟩)
      · rcases List.mem_cons.mp hs with rfl | hs'
        · refine Or.inl (Or.inl ?_)
          have h : s.name = stepName ∨ stringsContain dependency s.name = true := by
            rcases hc with hc | hc
            · exact Or.inl hc
            · exact Or.inr ((stringsContain_iff_mem _ _).mpr hc)
          rw [if_pos h]
          exact hm
        · exact Or.inr (Or.inl ⟨s, hs', hc, hm⟩)
      · rcases List.mem_cons.mp hs with rfl | hs'
        · exact Or.inl (Or.inr ⟨sub, hsub, hc, hm⟩)
        · exact Or.inr (Or.inr ⟨s, hs', sub, hsub, hc, hm⟩)

/-- C6: on a struct literal, `clearContextVars` keeps exactly the top-level
fields whose label is not an output name of the target step or of a step or
substep in `dependency`, and deletes the fields whose label is such an
output name; on a non-struct document it fails. -/
theorem c6_clear_context_vars (steps : List WorkflowStep) (stepName : String)
    (dependency : List String) :
    (∀ elts : List CueDecl, ∃ elts',
      clearContextVars steps (.structLit elts) stepName dependency =
        .ok (.structLit elts') ∧
      ∀ l p, CueDecl.field l p ∈ elts' ↔
        (CueDecl.field l p ∈ elts ∧ ¬ IsClearedOutput steps stepName dependency l)) ∧
    (∀ d, clearContextVars steps (.notStruct d) stepName dependency =
      .error "value is not a struct lit") := by
  constructor
  · intro elts
    refine ⟨_, rfl, fun l p => ?_⟩
    rw [List.mem_filter]
    simp only [Bool.not_eq_true']
    constructor
    · rintro ⟨hmem, hkeep⟩
      refine ⟨hmem, fun hc => ?_⟩
      have : stringsContain (collectOutputs stepName dependency steps) l = true :=
        (stringsContain_iff_mem _ _).mpr ((mem_collectOutputs _ _ _ _).mpr hc)
      simp [this] at hkeep
    · rintro ⟨hmem, hnc⟩
      refine ⟨hmem, ?_⟩
      have : stringsContain (collectOutputs stepName dependency steps) l = false := by
        rw [Bool.eq_false_iff]
        intro hc
        exact hnc ((mem_collectOutputs _ _ _ _).mp ((stringsContain_iff_mem _ _).mp hc))
      simp [this]
  · intro d
    rfl

instance (steps : List WorkflowStep) (stepName : String) (dependency : List String)
    (l : String) : Decidable (IsClearedOutput steps stepName dependency l) := by
  unfold IsClearedOutput
  infer_instance

theorem c6_witness :
    ∃ elts', clearContextVars specSteps
        (.structLit [.field "x" "1", .field "y" "2", .field "z" "3", .other "c"])
        "A" ["s2"] = .ok (.structLit elts') ∧
      (CueDecl.field "z" "3" ∈ elts' ∧ CueDecl.field "x" "1" ∉ elts' ∧
        CueDecl.field "y" "2" ∉ elts') ∧
      clearContextVars specSteps (.notStruct "int") "A" ["s2"] =
        .error "value is not a struct lit" := by
  obtain ⟨elts', heq, hiff⟩ :=
    (c6_clear_context_vars specSteps "A" ["s2"]).1
    [.field "x" "1", .field "y" "2", .field "z" "3", .other "c"]
  refine ⟨elts', heq, ⟨?_, ?_, ?_⟩, (c6_clear_context_vars specSteps "A" ["s2"]).2 "int"⟩
  · exact (hiff "z" "3").mpr ⟨by simp, by decide⟩
  · intro hc
    exact absurd (of_decide_eq_true rfl : IsClearedOutput specSteps "A" ["s2"] "x")
      ((hiff "x" "1").mp hc).2
  · intro hc
    exact absurd (of_decide_eq_true rfl : IsClearedOutput specSteps "A" ["s2"] "y")
      ((hiff "y" "2").mp hc).2

/-! ### C7: step ID stability -/

theorem findStepStatus_skip (pre rest : List WorkflowStepStatus) (name : String)
    (h : ∀ p ∈ pre, p.name ≠ name) :
    findStepStatus (pre ++ rest) name = findStepStatus rest name := by
  induction pre with
  | nil => rfl
  | cons p tail ih =>
    have hp : p.name ≠ name := h p (by simp)
    simp only [List.cons_append, findStepStatus, if_neg hp]
    exact ih fun x hx => h x (by simp [hx])

theorem firstSubMatch_eq_none (subs : List StepStatus) (s : String)
    (h : ∀ q ∈ subs, q.name ≠ s) : firstSubMatch subs s = none := by
  induction subs with
  | nil => rfl
  | cons q rest ih =>
    have hq : q.name ≠ s := h q (by simp)
    simp only [firstSubMatch, if_neg hq]
    exact ih fun x hx => h x (by simp [hx])

theorem firstSubMatch_found (spre spost : List StepStatus) (sub : StepStatus)
    (s : String) (hname : sub.name = s) (hpre : ∀ q ∈ spre, q.name ≠ s) :
    firstSubMatch (spre ++ sub :: spost) s = some sub := by
  induction spre with
  | nil => simp [firstSubMatch, hname]
  | cons q rest ih =>
    have hq : q.name ≠ s := hpre q (by simp)
    simp only [List.cons_append, firstSubMatch, if_neg hq]
    exact ih fun x hx => hpre x (by simp [hx])

theorem findSubStepID_skip (pre rest : List WorkflowStepStatus) (name parent : String)
    (h : ∀ p ∈ pre, p.name = parent → ∀ q ∈ p.subStepsStatus, q.name ≠ name) :
    findSubStepID (pre ++ rest) name parent = findSubStepID rest name parent := by
  induction pre with
  | nil => rfl
  | cons p tail ih =>
    by_cases hp : p.name = parent
    · simp only [List.cons_append, findSubStepID, if_pos hp,
        firstSubMatch_eq_none p.subStepsStatus name (h p (by simp) hp)]
      exact ih fun x hx => h x (by simp [hx])
    · simp only [List.cons_append, findSubStepID, if_neg hp]
      exact ih fun x hx => h x (by simp [hx])

theorem RandomString_length (rand : Nat → Char) (n : Nat) :
    (RandomString rand n).length = n := by
  simp [RandomString, String.length]

/-- C7: the step generator reuses the ID already recorded in status under a
step's name (and, for substeps, under the parent's `SubStepsStatus`); a
fresh 10-character ID is produced only when no record exists. -/
theorem c7_step_id_stability (rand : Nat → Char) :
    (∀ (status : WorkflowRunStatus) (pre post : List WorkflowStepStatus)
        (e : WorkflowStepStatus),
      status.steps = pre ++ e :: post → (∀ p ∈ pre, p.name ≠ e.name) →
      generateStepID rand status e.name = e.id) ∧
    (∀ (status : WorkflowRunStatus) (name : String),
      (∀ p ∈ status.steps, p.name ≠ name) →
      generateStepID rand status name = RandomString rand 10 ∧
        (generateStepID rand status name).length = 10) ∧
    (∀ (status : WorkflowRunStatus) (pre post : List WorkflowStepStatus)
        (par : WorkflowStepStatus) (spre spost : List StepStatus) (se : StepStatus)
        (name : String),
      status.steps = pre ++ par :: post → par.name ≠ "" →
      (∀ p ∈ pre, p.name = par.name → ∀ q ∈ p.subStepsStatus, q.name ≠ name) →
      par.subStepsStatus = spre ++ se :: spost → se.name = name →
      (∀ q ∈ spre, q.name ≠ name) →
      generateSubStepID rand status name par.name = se.id) ∧
    (∀ (status : WorkflowRunStatus) (name parent : String),
      (∀ p ∈ status.steps, p.name = parent → ∀ q ∈ p.subStepsStatus, q.name ≠ name) →
      generateSubStepID rand status name parent = RandomString rand 10 ∧
        (generateSubStepID rand status name parent).length = 10) := by
  refine ⟨fun status pre post e hsteps hpre => ?_,
    fun status name h => ?_,
    fun status pre post par spre spost se name hsteps _ hpre hsubs hname hspre => ?_,
    fun status name parent h => ?_⟩
  · unfold generateStepID
    rw [hsteps, findStepStatus_skip pre (e :: post) e.name hpre]
    simp [findStepStatus]
  · unfold generateStepID
    rw [← List.append_nil status.steps, findStepStatus_skip status.steps [] name h]
    exact ⟨rfl, RandomString_length rand 10⟩
  · unfold generateSubStepID
    rw [hsteps, findSubStepID_skip pre (par :: post) name par.name hpre]
    simp only [findSubStepID, if_pos rfl, hsubs,
      firstSubMatch_found spre spost se name hname hspre, if_true]
  · unfold generateSubStepID
    rw [← List.append_nil status.steps, findSubStepID_skip status.steps [] name parent h]
    exact ⟨rfl, RandomString_length rand 10⟩

/-- A status with recorded IDs for step `G` and substep `s2`. -/
def idStatus : WorkflowRunStatus :=
  { suspend := false
    terminated := false
    finished := false
    endTime := 0
    contextBackend := none
    mode := { steps := "", subSteps := "" }
    steps :=
      [ { id := "idA", name := "A", type := "t", phase := .succeeded, reason := "",
          subStepsStatus := [] }
      , { id := "idG", name := "G", type := "step-group", phase := .running, reason := "",
          subStepsStatus :=
            [ { id := "ids1", name := "s1", type := "t", phase := .running, reason := "" }
            , { id := "ids2", name := "s2", type := "t", phase := .running, reason := "" } ] } ] }

theorem c7_witness :
    generateStepID (fun _ => 'z') idStatus "G" = "idG" ∧
    (generateStepID (fun _ => 'z') idStatus "Q" = RandomString (fun _ => 'z') 10 ∧
      (generateStepID (fun _ => 'z') idStatus "Q").length = 10) ∧
    generateSubStepID (fun _ => 'z') idStatus "s2" "G" = "ids2" := by
  refine ⟨?_, ?_, ?_⟩
  · have h := (c7_step_id_stability (fun _ => 'z')).1 idStatus
      [idStatus.steps[0]] [] idStatus.steps[1] rfl
      (by intro p hp; simp [idStatus] at hp; subst hp; simp [idStatus])
    simpa [idStatus] using h
  · exact (c7_step_id_stability (fun _ => 'z')).2.1 idStatus "Q"
      (by intro p hp; simp [idStatus] at hp
          rcases hp with h | h <;> subst h <;> simp [idStatus])
  · have h := (c7_step_id_stability (fun _ => 'z')).2.2.1 idStatus
      [idStatus.steps[0]] [] idStatus.steps[1]
      [(idStatus.steps[1]).subStepsStatus[0]] [] (idStatus.steps[1]).subStepsStatus[1]
      "s2" rfl (by simp [idStatus])
      (by intro p hp; simp [idStatus] at hp; subst hp; simp [idStatus])
      (by simp [idStatus]) (by simp [idStatus])
      (by intro q hq; simp [idStatus] at hq; subst hq; simp [idStatus])
    simpa [idStatus] using h

/-! ### C8: full restart -/

/-- C8: `RestartWorkflow` with an empty step name deletes the durable
context object named by `status.ContextBackend` when it exists, still
succeeds when it does not exist (or no backend is recorded), and replaces
the whole status with the zero `WorkflowRunStatus`. -/
theorem c8_restart_full_reset (cluster : List String) (status : WorkflowRunStatus)
    (steps : List WorkflowStep) :
    (∀ name, status.contextBackend = some name → cluster.contains name = true →
      restartWorkflow cluster status steps "" = .ok (cluster.erase name, zeroStatus)) ∧
    (∀ name, status.contextBackend = some name → cluster.contains name = false →
      restartWorkflow cluster status steps "" = .ok (cluster, zeroStatus)) ∧
    (status.contextBackend = none →
      restartWorkflow cluster status steps "" = .ok (cluster, zeroStatus)) := by
  refine ⟨fun name hcb hmem => ?_, fun name hcb hmem => ?_, fun hcb => ?_⟩
  · have hm : name ∈ cluster := by simpa using hmem
    simp [restartWorkflow, hcb, hm]
  · have hm : name ∉ cluster := by simpa using hmem
    simp [restartWorkflow, hcb, hm]
  · simp [restartWorkflow, hcb]

theorem c8_witness :
    restartWorkflow ["cm1", "cm2"]
        { zeroStatus with contextBackend := some "cm1", finished := true } [] "" =
      .ok (["cm2"], zeroStatus) ∧
    restartWorkflow ["cm2"]
        { zeroStatus with contextBackend := some "cm1", finished := true } [] "" =
      .ok (["cm2"], zeroStatus) ∧
    restartWorkflow ["cm2"] { zeroStatus with finished := true } [] "" =
      .ok (["cm2"], zeroStatus) := by
  refine ⟨?_, ?_, ?_⟩
  · have h := (c8_restart_full_reset ["cm1", "cm2"]
      { zeroStatus with contextBackend := some "cm1", finished := true } []).1
      "cm1" rfl (by decide)
    simpa using h
  · exact (c8_restart_full_reset ["cm2"]
      { zeroStatus with contextBackend := some "cm1", finished := true } []).2.1
      "cm1" rfl (by decide)
  · exact (c8_restart_full_reset ["cm2"]
      { zeroStatus with finished := true } []).2.2 rfl

/-! ### The scan loop of RestartFromStep -/

/-- No status entry of `l` matches `s`, by top-level name or substep name. -/
def NoStatusMatch (l : List WorkflowStepStatus) (s : String) : Prop :=
  ∀ p ∈ l, p.name ≠ s ∧ ∀ q ∈ p.subStepsStatus, q.name ≠ s

instance (l : List WorkflowStepStatus) (s : String) : Decidable (NoStatusMatch l s) := by
  unfold NoStatusMatch
  infer_instance

/-- The scan walks past status entries that match neither by top-level name
nor by substep name. -/
theorem restartLoop_skip (steps : List WorkflowStep) (mode : WorkflowExecuteMode)
    (s : String) (pre : List WorkflowStepStatus) (h : NoStatusMatch pre s) :
    ∀ (done rest : List WorkflowStepStatus) (ov : Option (List WorkflowStepStatus))
      (dep : List String) (found : Bool),
      restartLoop steps mode s done (pre ++ rest) ov dep found =
        restartLoop steps mode s (done ++ pre) rest ov dep found := by
  induction pre with
  | nil => intro done rest ov dep found; simp
  | cons p tail ih =>
    intro done rest ov dep found
    obtain ⟨hp, hsub⟩ := h p (by simp)
    simp only [List.cons_append, restartLoop, if_neg hp,
      firstSubMatch_eq_none p.subStepsStatus s hsub, List.append_eq]
    have h2 := ih (fun x hx => h x (by simp [hx])) (done ++ [p]) rest ov dep found
    simp only [List.append_assoc, List.singleton_append] at h2
    exact h2

theorem deleteStepStatus_false_eq_filter (dep : List String)
    (l : List WorkflowStepStatus) (s : String) :
    deleteStepStatus dep l s false =
      l.filter fun w => !stringsContain dep w.name && w.name != s := by
  induction l with
  | nil => rfl
  | cons w rest ih =>
    by_cases hc : (!stringsContain dep w.name && w.name != s) = true
    · simp [deleteStepStatus, List.filter_cons, hc, ih]
    · simp [deleteStepStatus, List.filter_cons, hc, ih]

theorem deleteStepStatus_true_eq_filter (dep : List String)
    (l : List WorkflowStepStatus) (s : String) :
    deleteStepStatus dep l s true =
      l.filter fun w => !stringsContain dep w.name := by
  induction l with
  | nil => rfl
  | cons w rest ih =>
    by_cases hc : (!stringsContain dep w.name) = true
    · simp [deleteStepStatus, List.filter_cons, hc, ih]
    · simp [deleteStepStatus, List.filter_cons, hc, ih]

theorem deleteSubStepStatus_eq_filter (dep : List String)
    (l : List StepStatus) (s : String) :
    deleteSubStepStatus dep l s =
      l.filter fun q => !stringsContain dep q.name && q.name != s := by
  induction l with
  | nil => rfl
  | cons q rest ih =>
    by_cases hc : (!stringsContain dep q.name && q.name != s) = true
    · simp [deleteSubStepStatus, List.filter_cons, hc, ih]
    · simp [deleteSubStepStatus, List.filter_cons, hc, ih]

/-! ### C9: operator-invalid requests -/

/-- C9: `Rollback` always errors; `RestartFromStep` errors when the first
status entry (top-level or substep) matching the name is not Failed, and
when no entry matches at all.  In every error case the result carries no
status, modelling that nothing is written back. -/
theorem c9_operator_invalid_errors :
    (rollback = .error "can not rollback a WorkflowRun") ∧
    (∀ (steps : List WorkflowStep) (status : WorkflowRunStatus) (stepName : String)
        (pre post : List WorkflowStepStatus) (e : WorkflowStepStatus),
      stepName ≠ "" → status.steps = pre ++ e :: post → e.name = stepName →
      NoStatusMatch pre stepName → e.phase ≠ .failed →
      restartFromStep steps status stepName =
        .error "can not restart from a non-failed step") ∧
    (∀ (steps : List WorkflowStep) (status : WorkflowRunStatus) (stepName : String)
        (pre post : List WorkflowStepStatus) (g : WorkflowStepStatus)
        (spre spost : List StepStatus) (e : StepStatus),
      stepName ≠ "" → status.steps = pre ++ g :: post → g.name ≠ stepName →
      NoStatusMatch pre stepName → g.subStepsStatus = spre ++ e :: spost →
      e.name = stepName → (∀ q ∈ spre, q.name ≠ stepName) → e.phase ≠ .failed →
      restartFromStep steps status stepName =
        .error "can not restart from a non-failed step") ∧
    (∀ (steps : List WorkflowStep) (status : WorkflowRunStatus) (stepName : String),
      stepName ≠ "" → NoStatusMatch status.steps stepName →
      restartFromStep steps status stepName =
        .error ("failed step " ++ stepName ++ " not found")) := by
  refine ⟨rfl,
    fun steps status stepName pre post e hne hsteps hname hpre hphase => ?_,
    fun steps status stepName pre post g spre spost e hne hsteps hg hpre hsubs hname hspre hphase => ?_,
    fun steps status stepName hne hall => ?_⟩
  · simp only [restartFromStep, if_neg hne, hsteps]
    rw [restartLoop_skip steps status.mode stepName pre hpre [] (e :: post) none [] false]
    simp only [List.nil_append, restartLoop, if_pos hname, if_pos hphase]
  · simp only [restartFromStep, if_neg hne, hsteps]
    rw [restartLoop_skip steps status.mode stepName pre hpre [] (g :: post) none [] false]
    simp only [List.nil_append, restartLoop, if_neg hg, hsubs,
      firstSubMatch_found spre spost e stepName hname hspre, if_pos hphase]
  · simp only [restartFromStep, if_neg hne]
    rw [← List.append_nil status.steps,
      restartLoop_skip steps status.mode stepName status.steps hall [] [] none [] false]
    simp [restartLoop, if_neg hne]

/-- The status used by the C9 and C3 witnesses: `C` is the failed step. -/
def restartStatus : WorkflowRunStatus :=
  { suspend := true
    terminated := true
    finished := true
    endTime := 7
    contextBackend := some "cm"
    mode := { steps := "StepByStep", subSteps := "StepByStep" }
    steps :=
      [ { id := "1", name := "A", type := "t", phase := .succeeded, reason := "",
          subStepsStatus := [] }
      , { id := "2", name := "C", type := "t", phase := .failed, reason := "err",
          subStepsStatus := [] }
      , { id := "3", name := "D", type := "t", phase := .pending, reason := "",
          subStepsStatus := [] } ] }

/-- The declared steps matching `restartStatus`. -/
def restartSpec : List WorkflowStep :=
  [ { name := "A", type := "t", dependsOn := [], inputs := [], outputs := [],
      subSteps := [] }
  , { name := "C", type := "t", dependsOn := [], inputs := [], outputs := [],
      subSteps := [] }
  , { name := "D", type := "t", dependsOn := [], inputs := [], outputs := [],
      subSteps := [] } ]

theorem c9_witness :
    rollback = .error "can not rollback a WorkflowRun" ∧
    restartFromStep restartSpec restartStatus "D" =
      .error "can not restart from a non-failed step" ∧
    restartFromStep restartSpec restartStatus "Z" =
      .error ("failed step " ++ "Z" ++ " not found") := by
  refine ⟨c9_operator_invalid_errors.1, ?_, ?_⟩
  · exact c9_operator_invalid_errors.2.1 restartSpec restartStatus "D"
      [restartStatus.steps[0], restartStatus.steps[1]] [] restartStatus.steps[2]
      (by decide) rfl (by decide) (by decide) (by decide)
  · exact c9_operator_invalid_errors.2.2.2 restartSpec restartStatus "Z"
      (by decide) (by decide)

/-! ### C3: RestartFromStep frame effect -/

/-- C3, top-level case: restarting from a failed top-level step clears
`Terminated/Suspend/Finished/EndTime` and keeps exactly the status entries
whose name is neither the target nor one of its downstream dependents,
each unchanged; and substep case: additionally the enclosing group keeps
its entry with phase Running, reason cleared, and only the substeps that
are neither the target nor one of the target's own dependents. -/
theorem c3_restart_from_step_frame :
    (∀ (steps : List WorkflowStep) (status : WorkflowRunStatus) (stepName : String)
        (pre post : List WorkflowStepStatus) (e : WorkflowStepStatus),
      stepName ≠ "" → status.steps = pre ++ e :: post → e.name = stepName →
      NoStatusMatch pre stepName → e.phase = .failed →
      restartFromStep steps status stepName =
        .ok { status with
          terminated := false
          suspend := false
          finished := false
          endTime := 0
          steps := status.steps.filter fun w =>
            !stringsContain
              (getStepDependency steps stepName (status.mode.steps = WorkflowModeDAG))
              w.name && w.name != stepName }) ∧
    (∀ (steps : List WorkflowStep) (status : WorkflowRunStatus) (stepName : String)
        (pre post : List WorkflowStepStatus) (g : WorkflowStepStatus)
        (spre spost : List StepStatus) (e : StepStatus),
      stepName ≠ "" → status.steps = pre ++ g :: post → g.name ≠ stepName →
      NoStatusMatch pre stepName → NoStatusMatch post stepName →
      g.subStepsStatus = spre ++ e :: spost → e.name = stepName →
      (∀ q ∈ spre, q.name ≠ stepName) → e.phase = .failed →
      restartFromStep steps status stepName =
        .ok { status with
          terminated := false
          suspend := false
          finished := false
          endTime := 0
          steps :=
            (pre ++
              { toStepStatus := { g.toStepStatus with phase := .running, reason := "" }
                subStepsStatus := g.subStepsStatus.filter fun q =>
                  !stringsContain
                    (getStepDependency steps stepName
                      (status.mode.subSteps = WorkflowModeDAG)) q.name
                    && q.name != stepName } :: post).filter fun w =>
              !stringsContain
                (getStepDependency steps g.name (status.mode.steps = WorkflowModeDAG))
                w.name }) := by
  constructor
  · intro steps status stepName pre post e hne hsteps hname hpre hphase
    simp only [restartFromStep, if_neg hne, hsteps]
    rw [restartLoop_skip steps status.mode stepName pre hpre [] (e :: post) none [] false]
    have hfail : ¬ e.phase ≠ WorkflowStepPhase.failed := by simp [hphase]
    simp only [List.nil_append, restartLoop, if_pos hname, if_neg hfail,
      deleteStepStatus_false_eq_filter, if_true]
  · intro steps status stepName pre post g spre spost e hne hsteps hg hpre hpost hsubs
      hname hspre hphase
    simp only [restartFromStep, if_neg hne, hsteps]
    rw [restartLoop_skip steps status.mode stepName pre hpre [] (g :: post) none [] false]
    have hfail : ¬ e.phase ≠ WorkflowStepPhase.failed := by simp [hphase]
    simp only [List.nil_append, restartLoop, if_neg hg, hsubs,
      firstSubMatch_found spre spost e stepName hname hspre, if_neg hfail]
    rw [show post = post ++ ([] : List WorkflowStepStatus) from (List.append_nil post).symm,
      restartLoop_skip steps status.mode stepName post hpost]
    simp only [restartLoop, Option.getD_some, if_true, List.append_nil,
      deleteStepStatus_true_eq_filter, deleteSubStepStatus_eq_filter, List.append_assoc,
      List.singleton_append, ← hsubs]

/-- A run whose group `G` has a failed substep `s2`. -/
def restartSubStatus : WorkflowRunStatus :=
  { suspend := false
    terminated := true
    finished := false
    endTime := 3
    contextBackend := none
    mode := { steps := "StepByStep", subSteps := "StepByStep" }
    steps :=
      [ { id := "1", name := "A", type := "t", phase := .succeeded, reason := "",
          subStepsStatus := [] }
      , { id := "2", name := "G", type := "step-group", phase := .failed, reason := "err",
          subStepsStatus :=
            [ { id := "3", name := "s1", type := "t", phase := .succeeded, reason := "" }
            , { id := "4", name := "s2", type := "t", phase := .failed, reason := "err" }
            , { id := "5", name := "s3", type := "t", phase := .pending, reason := "" } ] }
      , { id := "6", name := "D", type := "t", phase := .pending, reason := "",
          subStepsStatus := [] } ] }

theorem c3_witness :
    restartFromStep restartSpec restartStatus "C" =
      .ok { restartStatus with
        terminated := false
        suspend := false
        finished := false
        endTime := 0
        steps := restartStatus.steps.filter fun w =>
          !stringsContain
            (getStepDependency restartSpec "C" (restartStatus.mode.steps = WorkflowModeDAG))
            w.name && w.name != "C" } ∧
    restartFromStep specSteps restartSubStatus "s2" =
      .ok { restartSubStatus with
        terminated := false
        suspend := false
        finished := false
        endTime := 0
        steps :=
          ([restartSubStatus.steps[0]] ++
            { toStepStatus :=
                { (restartSubStatus.steps[1]).toStepStatus with
                  phase := .running, reason := "" }
              subStepsStatus := (restartSubStatus.steps[1]).subStepsStatus.filter fun q =>
                !stringsContain
                  (getStepDependency specSteps "s2"
                    (restartSubStatus.mode.subSteps = WorkflowModeDAG)) q.name
                  && q.name != "s2" } :: [restartSubStatus.steps[2]]).filter fun w =>
            !stringsContain
              (getStepDependency specSteps "G"
                (restartSubStatus.mode.steps = WorkflowModeDAG))
              w.name } := by
  constructor
  · exact c3_restart_from_step_frame.1 restartSpec restartStatus "C"
      [restartStatus.steps[0]] [restartStatus.steps[2]] restartStatus.steps[1]
      (by decide) rfl (by decide) (by decide) (by decide)
  · have h := c3_restart_from_step_frame.2 specSteps restartSubStatus "s2"
      [restartSubStatus.steps[0]] [restartSubStatus.steps[2]] restartSubStatus.steps[1]
      [(restartSubStatus.steps[1]).subStepsStatus[0]]
      [(restartSubStatus.steps[1]).subStepsStatus[2]]
      (restartSubStatus.steps[1]).subStepsStatus[1]
      (by decide) rfl (by decide) (by decide) (by decide) (by decide) (by decide)
      (by decide) (by decide)
    simpa using h

/-! ### Characterizing the maps built by the DAG branch -/

theorem lookupA_setA_self {α : Type} (m : List (String × α)) (k : String) (v : α) :
    lookupA (setA m k v) k = some v := by
  induction m with
  | nil => simp [setA, lookupA]
  | cons e rest ih =>
    by_cases h : e.1 = k
    · simp [setA, lookupA, h]
    · simp [setA, lookupA, h, ih]

theorem lookupA_setA_other {α : Type} (m : List (String × α)) (k k' : String) (v : α)
    (h : k' ≠ k) : lookupA (setA m k v) k' = lookupA m k' := by
  induction m with
  | nil => simp [setA, lookupA, Ne.symm h]
  | cons e rest ih =>
    by_cases he : e.1 = k
    · subst he
      simp [setA, lookupA, Ne.symm h]
    · by_cases he' : e.1 = k'
      · simp [setA, lookupA, he, he', h]
      · simp [setA, lookupA, he, he', ih]

/-- Sequential Go-map assignment of a list of key/value pairs. -/
def applyAll {α : Type} (acc : List (String × α)) (ps : List (String × α)) :
    List (String × α) :=
  ps.foldl (fun m e => setA m e.1 e.2) acc

/-- The value of the last pair of `ps` with the given key, when any. -/
def lastVal {α : Type} (ps : List (String × α)) (x : String) : Option α :=
  match ps with
  | [] => none
  | e :: rest =>
    match lastVal rest x with
    | some r => some r
    | none => if e.1 = x then some e.2 else none

theorem applyAll_append {α : Type} (acc : List (String × α)) (a b : List (String × α)) :
    applyAll acc (a ++ b) = applyAll (applyAll acc a) b := by
  simp [applyAll, List.foldl_append]

theorem lookupA_applyAll {α : Type} (ps : List (String × α)) :
    ∀ (acc : List (String × α)) (x : String),
      lookupA (applyAll acc ps) x =
        match lastVal ps x with
        | some v => some v
        | none => lookupA acc x := by
  induction ps with
  | nil => intro acc x; rfl
  | cons e rest ih =>
    intro acc x
    rw [show applyAll acc (e :: rest) = applyAll (setA acc e.1 e.2) rest from rfl, ih]
    cases hrest : lastVal rest x with
    | some r => simp [lastVal, hrest]
    | none =>
      by_cases hx : e.1 = x
      · subst hx
        simp [lastVal, hrest, lookupA_setA_self]
      · simp [lastVal, hrest, hx, lookupA_setA_other acc e.1 x e.2 (Ne.symm hx)]

theorem lastVal_of_not_mem {α : Type} (ps : List (String × α)) (x : String)
    (h : x ∉ ps.map Prod.fst) : lastVal ps x = none := by
  induction ps with
  | nil => rfl
  | cons e rest ih =>
    simp only [List.map_cons, List.mem_cons, not_or] at h
    simp [lastVal, ih h.2, Ne.symm h.1]

theorem lastVal_of_mem {α : Type} (ps : List (String × α))
    (hnd : (ps.map Prod.fst).Nodup) (x : String) (v : α) (h : (x, v) ∈ ps) :
    lastVal ps x = some v := by
  induction ps with
  | nil => simp at h
  | cons e rest ih =>
    simp only [List.map_cons, List.nodup_cons] at hnd
    rcases List.mem_cons.mp h with rfl | h'
    · have hnone : lastVal rest x = none := by
        apply lastVal_of_not_mem
        simpa using hnd.1
      simp [lastVal, hnone]
    · simp [lastVal, ih hnd.2 h']

theorem lastVal_mem {α : Type} (ps : List (String × α)) (x : String) (v : α)
    (h : lastVal ps x = some v) : (x, v) ∈ ps := by
  induction ps with
  | nil => simp [lastVal] at h
  | cons e rest ih =>
    rcases hrest : lastVal rest x with - | r
    · rw [lastVal, hrest] at h
      by_cases hx : e.1 = x
      · rw [if_pos hx] at h
        obtain rfl : e.2 = v := by injection h
        subst hx
        exact List.mem_cons_self _ _
      · rw [if_neg hx] at h
        exact absurd h (by simp)
    · rw [lastVal, hrest] at h
      obtain rfl : r = v := by injection h
      exact List.mem_cons_of_mem _ (ih hrest)

/-- The output/producer pairs registered by the first loop of the DAG
branch, in registration order. -/
def declaredOutputsSubs (subs : List WorkflowStepBase) : List (String × String) :=
  subs.flatMap fun u => u.outputs.map fun o => (o.name, u.name)

/-- All output/producer pairs of the workflow, in registration order. -/
def declaredOutputs (steps : List WorkflowStep) : List (String × String) :=
  steps.flatMap fun st =>
    (st.outputs.map fun o => (o.name, st.name)) ++ declaredOutputsSubs st.subSteps

/-- All steps and substeps, in declaration order. -/
def unitsOf (steps : List WorkflowStep) : List WorkflowStepBase :=
  steps.flatMap fun st => st.toWorkflowStepBase :: st.subSteps

/-- The name/`DependsOn` pairs registered by the first loop. -/
def declaredDeps (steps : List WorkflowStep) : List (String × List String) :=
  (unitsOf steps).map fun u => (u.name, u.dependsOn)

theorem setOutputs_eq (owner : String) (outs : List OutputItem) :
    ∀ so, setOutputs so owner outs = applyAll so (outs.map fun o => (o.name, owner)) := by
  induction outs with
  | nil => intro so; rfl
  | cons o rest ih => intro so; simp only [setOutputs, List.map_cons, ih]; rfl

theorem pass1Subs_fst (subs : List WorkflowStepBase) :
    ∀ so dm, (pass1Subs so dm subs).1 = applyAll so (declaredOutputsSubs subs) := by
  induction subs with
  | nil => intro so dm; rfl
  | cons u rest ih =>
    intro so dm
    simp only [pass1Subs, pass1Unit, ih, setOutputs_eq, declaredOutputsSubs,
      List.flatMap_cons, applyAll_append]

theorem pass1_fst (steps : List WorkflowStep) :
    ∀ so dm, (pass1 so dm steps).1 = applyAll so (declaredOutputs steps) := by
  induction steps with
  | nil => intro so dm; rfl
  | cons st rest ih =>
    intro so dm
    simp only [pass1, pass1Unit, pass1Subs_fst, ih, setOutputs_eq, declaredOutputs,
      List.flatMap_cons, applyAll_append]

theorem pass1Subs_snd (subs : List WorkflowStepBase) :
    ∀ so dm, (pass1Subs so dm subs).2 =
      applyAll dm (subs.map fun u => (u.name, u.dependsOn)) := by
  induction subs with
  | nil => intro so dm; rfl
  | cons u rest ih =>
    intro so dm
    simp only [pass1Subs, pass1Unit, ih, List.map_cons]
    rfl

theorem pass1_snd (steps : List WorkflowStep) :
    ∀ so dm, (pass1 so dm steps).2 = applyAll dm (declaredDeps steps) := by
  induction steps with
  | nil => intro so dm; rfl
  | cons st rest ih =>
    intro so dm
    simp only [pass1, pass1Unit, pass1Subs_snd, ih, declaredDeps, unitsOf,
      List.flatMap_cons, List.map_cons, List.map_append, applyAll_append]
    rfl

/-- Sequential second-loop processing of a list of steps or substeps. -/
def pass2Units (so : List (String × String)) (dm : List (String × List String))
    (us : List WorkflowStepBase) : List (String × List String) :=
  us.foldl (fun m u => addInputs so m u.name u.inputs) dm

theorem pass2Subs_eq (so : List (String × String)) (subs : List WorkflowStepBase) :
    ∀ dm, pass2Subs so dm subs = pass2Units so dm subs := by
  induction subs with
  | nil => intro dm; rfl
  | cons u rest ih => intro dm; simp only [pass2Subs, ih]; rfl

theorem pass2_eq (so : List (String × String)) (steps : List WorkflowStep) :
    ∀ dm, pass2 so dm steps = pass2Units so dm (unitsOf steps) := by
  induction steps with
  | nil => intro dm; rfl
  | cons st rest ih =>
    intro dm
    simp only [pass2, pass2Subs_eq, ih, unitsOf, List.flatMap_cons, pass2Units,
      List.foldl_append, List.foldl_cons]

theorem lookupA_addInput_other (so : List (String × String))
    (dm : List (String × List String)) (owner n : String) (inp : InputItem)
    (h : n ≠ owner) : lookupA (addInput so dm owner inp) n = lookupA dm n := by
  unfold addInput
  cases lookupA so inp.from_ with
  | none => rfl
  | some name =>
    by_cases hc : stringsContain ((lookupA dm owner).getD []) name = true
    · simp [hc]
    · simp [hc, lookupA_setA_other dm owner n _ h]

theorem lookupA_addInputs_other (so : List (String × String)) (inputs : List InputItem) :
    ∀ (dm : List (String × List String)) (owner n : String), n ≠ owner →
      lookupA (addInputs so dm owner inputs) n = lookupA dm n := by
  induction inputs with
  | nil => intro dm owner n _; rfl
  | cons inp rest ih =>
    intro dm owner n h
    simp only [addInputs, ih _ _ _ h, lookupA_addInput_other so dm owner n inp h]

theorem lookupA_pass2Units_not_mem (so : List (String × String))
    (us : List WorkflowStepBase) :
    ∀ (dm : List (String × List String)) (n : String),
      n ∉ us.map WorkflowStepBase.name →
      lookupA (pass2Units so dm us) n = lookupA dm n := by
  induction us with
  | nil => intro dm n _; rfl
  | cons u rest ih =>
    intro dm n h
    simp only [List.map_cons, List.mem_cons, not_or] at h
    show lookupA (pass2Units so (addInputs so dm u.name u.inputs) rest) n = _
    rw [ih _ _ h.2, lookupA_addInputs_other so u.inputs dm u.name n h.1]

theorem mem_addInputs (so : List (String × String)) (inputs : List InputItem) :
    ∀ (dm : List (String × List String)) (owner d : String),
      d ∈ (lookupA (addInputs so dm owner inputs) owner).getD [] ↔
        (d ∈ (lookupA dm owner).getD [] ∨
          ∃ inp ∈ inputs, lookupA so inp.from_ = some d) := by
  induction inputs with
  | nil => intro dm owner d; simp [addInputs]
  | cons inp rest ih =>
    intro dm owner d
    show d ∈ (lookupA (addInputs so (addInput so dm owner inp) owner rest) owner).getD [] ↔ _
    rw [ih]
    have hstep : d ∈ (lookupA (addInput so dm owner inp) owner).getD [] ↔
        (d ∈ (lookupA dm owner).getD [] ∨ lookupA so inp.from_ = some d) := by
      cases hso : lookupA so inp.from_ with
      | none => simp [addInput, hso]
      | some name =>
        simp only [addInput, hso]
        by_cases hc : stringsContain ((lookupA dm owner).getD []) name = true
        · rw [if_pos hc]
          constructor
          · exact Or.inl
          · rintro (h | h)
            · exact h
            · obtain rfl : name = d := by injection h
              exact (stringsContain_iff_mem _ _).mp hc
        · rw [if_neg hc, lookupA_setA_self]
          simp only [Option.getD_some, List.mem_append, List.mem_singleton]
          constructor
          · rintro (h | rfl)
            · exact Or.inl h
            · exact Or.inr rfl
          · rintro (h | h)
            · exact Or.inl h
            · right
              injection h with h
              exact h.symm
    rw [hstep]
    constructor
    · rintro ((h | h) | ⟨i, hi, hl⟩)
      · exact Or.inl h
      · exact Or.inr ⟨inp, by simp, h⟩
      · exact Or.inr ⟨i, by simp [hi], hl⟩
    · rintro (h | ⟨i, hi, hl⟩)
      · exact Or.inl (Or.inl h)
      · rcases List.mem_cons.mp hi with rfl | hi'
        · exact Or.inl (Or.inr hl)
        · exact Or.inr ⟨i, hi', hl⟩

theorem mem_pass2Units (so : List (String × String)) (us : List WorkflowStepBase)
    (hnd : (us.map WorkflowStepBase.name).Nodup) :
    ∀ (dm : List (String × List String)) (u : WorkflowStepBase), u ∈ us → ∀ d,
      d ∈ (lookupA (pass2Units so dm us) u.name).getD [] ↔
        (d ∈ (lookupA dm u.name).getD [] ∨
          ∃ inp ∈ u.inputs, lookupA so inp.from_ = some d) := by
  induction us with
  | nil => intro dm u hu; simp at hu
  | cons w rest ih =>
    intro dm u hu d
    simp only [List.map_cons, List.nodup_cons] at hnd
    rcases List.mem_cons.mp hu with rfl | hu'
    · show d ∈ (lookupA (pass2Units so (addInputs so dm u.name u.inputs) rest) u.name).getD [] ↔ _
      rw [lookupA_pass2Units_not_mem so rest _ _ (by simpa using hnd.1), mem_addInputs]
    · have hne : u.name ≠ w.name := by
        intro hc
        exact hnd.1 (hc ▸ (List.mem_map.mpr ⟨u, hu', rfl⟩))
      show d ∈ (lookupA (pass2Units so (addInputs so dm w.name w.inputs) rest) u.name).getD [] ↔ _
      rw [ih hnd.2 _ u hu' d, lookupA_addInputs_other so w.inputs dm w.name u.name hne]

/-- The producer relation from the claim: the step or substep named `d`
declares an output named `x`. -/
def ProducesOutput (steps : List WorkflowStep) (d x : String) : Prop :=
  ∃ u ∈ unitsOf steps, u.name = d ∧ x ∈ u.outputs.map OutputItem.name

theorem mem_declaredOutputs_iff (steps : List WorkflowStep) (x d : String) :
    (x, d) ∈ declaredOutputs steps ↔ ProducesOutput steps d x := by
  unfold declaredOutputs ProducesOutput unitsOf declaredOutputsSubs
  simp only [List.mem_flatMap, List.mem_append, List.mem_map, List.mem_cons, Prod.mk.injEq]
  constructor
  · rintro ⟨st, hst, ⟨o, ho, hx, hd⟩ | ⟨sub, hsub, o, ho, hx, hd⟩⟩
    · exact ⟨st.toWorkflowStepBase, ⟨st, hst, Or.inl rfl⟩, hd, o, ho, hx⟩
    · exact ⟨sub, ⟨st, hst, Or.inr hsub⟩, hd, o, ho, hx⟩
  · rintro ⟨u, ⟨st, hst, hu⟩, hd, o, ho, hox⟩
    rcases hu with rfl | hsub
    · exact ⟨st, hst, Or.inl ⟨o, ho, hox, hd⟩⟩
    · exact ⟨st, hst, Or.inr ⟨u, hsub, o, ho, hox, hd⟩⟩

/-! ### findDependency: soundness, completeness and termination -/

/-- One dependency edge of a `dependsOn` map: the entry of `k` lists `s`,
i.e. `k` depends directly on `s`. -/
def DepEdge (dm : List (String × List String)) (k s : String) : Prop :=
  ∃ e ∈ dm, e.1 = k ∧ s ∈ e.2

instance (dm : List (String × List String)) (k s : String) : Decidable (DepEdge dm k s) := by
  unfold DepEdge
  infer_instance

theorem mem_findDependencyF_succ (f : Nat) (dm : List (String × List String))
    (s x : String) :
    x ∈ findDependencyF (f + 1) dm s ↔
      ∃ e ∈ dm, s ∈ e.2 ∧ (x = e.1 ∨ x ∈ findDependencyF f dm e.1) := by
  simp only [findDependencyF, List.mem_flatMap]
  constructor
  · rintro ⟨e, he, dep, hdep, hx⟩
    by_cases hc : dep = s
    · subst hc
      rw [if_pos rfl] at hx
      rcases List.mem_cons.mp hx with rfl | hx'
      · exact ⟨e, he, hdep, Or.inl rfl⟩
      · exact ⟨e, he, hdep, Or.inr hx'⟩
    · rw [if_neg hc] at hx
      simp at hx
  · rintro ⟨e, he, hs, hx⟩
    refine ⟨e, he, s, hs, ?_⟩
    rw [if_pos rfl]
    rcases hx with rfl | hx'
    · exact List.mem_cons_self _ _
    · exact List.mem_cons_of_mem _ hx'

/-- Every name returned by the fuelled recursion transitively depends on
the queried step. -/
theorem findDependencyF_sound (dm : List (String × List String)) :
    ∀ (f : Nat) (s x : String), x ∈ findDependencyF f dm s →
      Relation.TransGen (DepEdge dm) x s := by
  intro f
  induction f with
  | zero => intro s x h; simp [findDependencyF] at h
  | succ f ih =>
    intro s x h
    rw [mem_findDependencyF_succ] at h
    obtain ⟨e, he, hs, hx⟩ := h
    rcases hx with rfl | hx'
    · exact Relation.TransGen.single ⟨e, he, rfl, hs⟩
    · exact Relation.TransGen.tail (ih e.1 x hx') ⟨e, he, rfl, hs⟩

/-- Membership in the fuelled recursion is monotone in the fuel. -/
theorem findDependencyF_mono (dm : List (String × List String)) (x : String) :
    ∀ (f f' : Nat), f ≤ f' → ∀ s, x ∈ findDependencyF f dm s →
      x ∈ findDependencyF f' dm s := by
  intro f
  induction f with
  | zero => intro f' _ s hx; simp [findDependencyF] at hx
  | succ f ih =>
    intro f' hle s hx
    obtain ⟨f'', rfl⟩ : ∃ f'', f' = f'' + 1 := ⟨f' - 1, by omega⟩
    rw [mem_findDependencyF_succ] at hx ⊢
    obtain ⟨e, he, hs, hcase⟩ := hx
    refine ⟨e, he, hs, ?_⟩
    rcases hcase with rfl | hx'
    · exact Or.inl rfl
    · exact Or.inr (ih f'' (by omega) e.1 hx')

/-- Every transitive dependent is returned at some fuel. -/
theorem findDependencyF_complete (dm : List (String × List String)) (x s : String)
    (h : Relation.TransGen (DepEdge dm) x s) :
    ∃ f, x ∈ findDependencyF f dm s := by
  induction h with
  | single hedge =>
    obtain ⟨e, he, h1, hs⟩ := hedge
    exact ⟨1, (mem_findDependencyF_succ 0 dm _ _).mpr ⟨e, he, hs, Or.inl h1.symm⟩⟩
  | tail _hT hedge ih =>
    obtain ⟨f, hf⟩ := ih
    obtain ⟨e, he, h1, hs⟩ := hedge
    refine ⟨f + 1, (mem_findDependencyF_succ f dm _ _).mpr ⟨e, he, hs, Or.inr ?_⟩⟩
    rw [h1]
    exact hf

theorem chain_transGen {r : String → String → Prop} :
    ∀ (l : List String) (a : String), List.Chain r a l → ∀ b ∈ l,
      Relation.TransGen r a b := by
  intro l
  induction l with
  | nil => intro a _ b hb; simp at hb
  | cons c rest ih =>
    intro a hch b hb
    rw [List.chain_cons] at hch
    rcases List.mem_cons.mp hb with rfl | hb'
    · exact Relation.TransGen.single hch.1
    · exact Relation.TransGen.head hch.1 (ih c hch.2 b hb')

theorem flatMap_congr {α β : Type} (l : List α) (f g : α → List β)
    (h : ∀ a ∈ l, f a = g a) : l.flatMap f = l.flatMap g := by
  induction l with
  | nil => rfl
  | cons a t ih =>
    simp only [List.flatMap_cons, h a (by simp), ih fun x hx => h x (by simp [hx])]

/-- On an acyclic map, the fuelled recursion stabilizes: along any chain of
recursive calls the visited keys are distinct, so fuel beyond the number of
remaining keys does not change the result.  `stack` is the chain of callers
above `s`. -/
theorem findDependencyF_stable_aux (dm : List (String × List String))
    (_hnd : (dm.map Prod.fst).Nodup)
    (hac : ∀ x, ¬ Relation.TransGen (DepEdge dm) x x) :
    ∀ (fuel : Nat) (s : String) (stack : List String),
      s ∈ dm.map Prod.fst →
      List.Chain (DepEdge dm) s stack →
      (s :: stack).Nodup →
      (∀ t ∈ stack, t ∈ dm.map Prod.fst) →
      dm.length ≤ fuel + stack.length →
      ∀ f, fuel ≤ f → findDependencyF f dm s = findDependencyF fuel dm s := by
  intro fuel
  induction fuel with
  | zero =>
    intro s stack hs _hch hnodup hsub hlen f _hf
    exfalso
    have hsubkeys : ∀ t ∈ s :: stack, t ∈ dm.map Prod.fst := by
      intro t ht
      rcases List.mem_cons.mp ht with rfl | ht'
      · exact hs
      · exact hsub t ht'
    have hcard : (s :: stack).length ≤ dm.length := by
      calc (s :: stack).length = (s :: stack).toFinset.card :=
              (List.toFinset_card_of_nodup hnodup).symm
        _ ≤ (dm.map Prod.fst).toFinset.card := by
              apply Finset.card_le_card
              intro t ht
              rw [List.mem_toFinset] at ht ⊢
              exact hsubkeys t ht
        _ ≤ (dm.map Prod.fst).length := List.toFinset_card_le _
        _ = dm.length := List.length_map _ _
    simp only [List.length_cons] at hcard
    omega
  | succ fuel ih =>
    intro s stack hs hch hnodup hsub hlen f hf
    obtain ⟨f', rfl⟩ : ∃ f', f = f' + 1 := ⟨f - 1, by omega⟩
    show findDependencyF (f' + 1) dm s = findDependencyF (fuel + 1) dm s
    simp only [findDependencyF]
    apply flatMap_congr
    intro e he
    apply flatMap_congr
    intro dep hdep
    by_cases hc : dep = s
    · subst hc
      rw [if_pos rfl, if_pos rfl]
      have hedge : DepEdge dm e.1 dep := ⟨e, he, rfl, hdep⟩
      have hkey : e.1 ∈ dm.map Prod.fst := List.mem_map.mpr ⟨e, he, rfl⟩
      have hnotin : e.1 ∉ dep :: stack := by
        intro hmem
        have htrans : Relation.TransGen (DepEdge dm) e.1 e.1 := by
          rcases List.mem_cons.mp hmem with heq | hmem'
          · exact Relation.TransGen.single (heq ▸ hedge)
          · exact Relation.TransGen.head hedge
              (chain_transGen stack dep hch e.1 hmem')
        exact hac e.1 htrans
      have h1 := ih e.1 (dep :: stack) hkey
        (List.chain_cons.mpr ⟨hedge, hch⟩)
        (List.nodup_cons.mpr ⟨hnotin, hnodup⟩)
        (fun t ht => by
          rcases List.mem_cons.mp ht with rfl | ht'
          · exact hs
          · exact hsub t ht')
        (by simp only [List.length_cons]; omega)
        f' (by omega)
      rw [h1]
    · rw [if_neg hc, if_neg hc]

/-- C10: on an acyclic `dependsOn` map (with well-formed, duplicate-free
keys), the recursion of `findDependency` is well-founded: any fuel of at
least `dm.length + 1` yields the same finite list, which is the value of
`findDependency`.  This makes acyclicity the precondition under which the
Go recursion (which carries no visited set) terminates. -/
theorem c10_find_dependency_terminates (dm : List (String × List String)) (s : String)
    (hnd : (dm.map Prod.fst).Nodup)
    (hac : ∀ x, ¬ Relation.TransGen (DepEdge dm) x x) :
    ∀ f, dm.length + 1 ≤ f → findDependencyF f dm s = findDependency dm s := by
  intro f hf
  obtain ⟨f', rfl⟩ : ∃ f', f = f' + 1 := ⟨f - 1, by omega⟩
  show findDependencyF (f' + 1) dm s = findDependencyF (dm.length + 1) dm s
  simp only [findDependencyF]
  apply flatMap_congr
  intro e he
  apply flatMap_congr
  intro dep hdep
  by_cases hc : dep = s
  · rw [if_pos hc, if_pos hc]
    have hkey : e.1 ∈ dm.map Prod.fst := List.mem_map.mpr ⟨e, he, rfl⟩
    have h1 := findDependencyF_stable_aux dm hnd hac dm.length e.1 [] hkey
      List.Chain.nil (List.nodup_singleton _) (by simp) (by simp) f' (by omega)
    rw [h1]
  · rw [if_neg hc, if_neg hc]

theorem acyclic_of_rank (dm : List (String × List String)) (rank : String → Nat)
    (h : ∀ k s, DepEdge dm k s → rank s < rank k) :
    ∀ x, ¬ Relation.TransGen (DepEdge dm) x x := by
  have hlt : ∀ a b, Relation.TransGen (DepEdge dm) a b → rank b < rank a := by
    intro a b hab
    induction hab with
    | single h1 => exact h _ _ h1
    | tail _hT h1 ih => exact lt_trans (h _ _ h1) ih
  intro x hx
  exact lt_irrefl _ (hlt x x hx)

/-! ### C4: getStepDependency, DAG mode -/

/-- C4: in DAG mode the `dependsOn` map built by `getStepDependency` holds,
for each step and substep, exactly its explicit `DependsOn` names together
with the producers of its inputs (matched by output name); and the returned
list contains exactly the steps that transitively list `stepName` in their
`dependsOn`. -/
theorem c4_dag_dependency_characterization (steps : List WorkflowStep) (stepName : String)
    (hnames : ((unitsOf steps).map WorkflowStepBase.name).Nodup)
    (houts : ((declaredOutputs steps).map Prod.fst).Nodup)
    (hnd : ((buildDependsOn steps).map Prod.fst).Nodup)
    (hac : ∀ x, ¬ Relation.TransGen (DepEdge (buildDependsOn steps)) x x) :
    (∀ u ∈ unitsOf steps, ∀ d,
      d ∈ (lookupA (buildDependsOn steps) u.name).getD [] ↔
        (d ∈ u.dependsOn ∨ ∃ inp ∈ u.inputs, ProducesOutput steps d inp.from_)) ∧
    (∀ x, x ∈ getStepDependency steps stepName true ↔
      Relation.TransGen (DepEdge (buildDependsOn steps)) x stepName) := by
  constructor
  · intro u hu d
    have hbuild : buildDependsOn steps =
        pass2Units ((pass1 [] [] steps).1) (applyAll [] (declaredDeps steps))
          (unitsOf steps) := by
      show pass2 (pass1 [] [] steps).1 (pass1 [] [] steps).2 steps = _
      rw [pass2_eq, pass1_snd]
    rw [hbuild, mem_pass2Units _ _ hnames _ u hu d]
    have hbase : lookupA (applyAll [] (declaredDeps steps)) u.name = some u.dependsOn := by
      rw [lookupA_applyAll]
      have hkeys : ((declaredDeps steps).map Prod.fst) =
          (unitsOf steps).map WorkflowStepBase.name := by
        simp [declaredDeps, List.map_map]
      have hmem : (u.name, u.dependsOn) ∈ declaredDeps steps :=
        List.mem_map.mpr ⟨u, hu, rfl⟩
      rw [lastVal_of_mem _ (by rw [hkeys]; exact hnames) _ _ hmem]
    rw [hbase]
    have hso : ∀ x d', lookupA (pass1 [] [] steps).1 x = some d' ↔
        (x, d') ∈ declaredOutputs steps := by
      intro x d'
      rw [pass1_fst, lookupA_applyAll]
      constructor
      · intro h
        cases hlast : lastVal (declaredOutputs steps) x with
        | none => rw [hlast] at h; exact absurd h (by simp [lookupA])
        | some v =>
          rw [hlast] at h
          obtain rfl : v = d' := by injection h
          exact lastVal_mem _ _ _ hlast
      · intro h
        rw [lastVal_of_mem _ houts _ _ h]
    simp only [Option.getD_some]
    constructor
    · rintro (h | ⟨inp, hinp, hl⟩)
      · exact Or.inl h
      · exact Or.inr ⟨inp, hinp, (mem_declaredOutputs_iff steps _ _).mp ((hso _ _).mp hl)⟩
    · rintro (h | ⟨inp, hinp, hp⟩)
      · exact Or.inl h
      · exact Or.inr ⟨inp, hinp, (hso _ _).mpr ((mem_declaredOutputs_iff steps _ _).mpr hp)⟩
  · intro x
    have hget : getStepDependency steps stepName true =
        findDependency (buildDependsOn steps) stepName := by
      simp [getStepDependency]
    rw [hget]
    constructor
    · intro h
      exact findDependencyF_sound (buildDependsOn steps) _ stepName x h
    · intro h
      obtain ⟨f, hf⟩ := findDependencyF_complete (buildDependsOn steps) x stepName h
      have hmax : x ∈ findDependencyF (max f ((buildDependsOn steps).length + 1))
          (buildDependsOn steps) stepName :=
        findDependencyF_mono _ x f _ (le_max_left _ _) stepName hf
      rw [c10_find_dependency_terminates (buildDependsOn steps) stepName hnd hac
        _ (le_max_right _ _)] at hmax
      exact hmax

/-- DAG example: `A` declares output `x`, `B` consumes input `x`, `C`
explicitly depends on `B`. -/
def dagSteps : List WorkflowStep :=
  [ { name := "A", type := "t", dependsOn := [], inputs := [],
      outputs := [{ name := "x" }], subSteps := [] }
  , { name := "B", type := "t", dependsOn := [],
      inputs := [{ from_ := "x", parameterKey := "p" }], outputs := [], subSteps := [] }
  , { name := "C", type := "t", dependsOn := ["B"], inputs := [], outputs := [],
      subSteps := [] } ]

theorem dagSteps_acyclic :
    ∀ x, ¬ Relation.TransGen (DepEdge (buildDependsOn dagSteps)) x x := by
  apply acyclic_of_rank _ (fun x => if x = "C" then 2 else if x = "B" then 1 else 0)
  intro k s hedge
  obtain ⟨e, he, hk, hs⟩ := hedge
  have hdm : buildDependsOn dagSteps = [("A", []), ("B", ["A"]), ("C", ["B"])] := by
    decide
  rw [hdm] at he
  have he' : e = ("A", ([] : List String)) ∨ e = ("B", ["A"]) ∨ e = ("C", ["B"]) := by
    simpa using he
  subst hk
  rcases he' with rfl | rfl | rfl
  · simp at hs
  · obtain rfl : s = "A" := by simpa using hs
    decide
  · obtain rfl : s = "B" := by simpa using hs
    decide

instance (steps : List WorkflowStep) (d x : String) :
    Decidable (ProducesOutput steps d x) := by
  unfold ProducesOutput
  infer_instance

/-- The `B` unit of `dagSteps`, as registered in the maps. -/
def dagUnitB : WorkflowStepBase :=
  { name := "B", type := "t", dependsOn := [],
    inputs := [{ from_ := "x", parameterKey := "p" }], outputs := [] }

theorem c4_witness :
    "A" ∈ (lookupA (buildDependsOn dagSteps) dagUnitB.name).getD [] ∧
    "C" ∈ getStepDependency dagSteps "A" true ∧
    "B" ∈ getStepDependency dagSteps "A" true := by
  have h := c4_dag_dependency_characterization dagSteps "A"
    (by decide) (by decide) (by decide) dagSteps_acyclic
  have hedgeBA : DepEdge (buildDependsOn dagSteps) "B" "A" :=
    ⟨("B", ["A"]), by decide, rfl, by decide⟩
  have hedgeCB : DepEdge (buildDependsOn dagSteps) "C" "B" :=
    ⟨("C", ["B"]), by decide, rfl, by decide⟩
  refine ⟨?_, ?_, ?_⟩
  · exact (h.1 dagUnitB (by decide) "A").mpr
      (Or.inr ⟨{ from_ := "x", parameterKey := "p" }, by decide, by decide⟩)
  · exact (h.2 "C").mpr
      (Relation.TransGen.tail (Relation.TransGen.single hedgeCB) hedgeBA)
  · exact (h.2 "B").mpr (Relation.TransGen.single hedgeBA)

theorem c10_witness :
    findDependencyF 5 (buildDependsOn dagSteps) "A" =
      findDependency (buildDependsOn dagSteps) "A" :=
  c10_find_dependency_terminates (buildDependsOn dagSteps) "A" (by decide)
    dagSteps_acyclic 5 (by decide)

end Workflow
